import Mathlib

/-!
Verification of the TEFingerprint core: a shallow embedding of the
univariate density clustering engine (tefingerprint/cluster.py), the
loci-group algebra (tectoolkit/loci.py) and the SAM read parser
(tectoolkit/reads.py), together with proofs of the behavioural claims
made by the natural-language specification.

Integer arrays are embedded as List Int (the source arrays are int64 and
no arithmetic here approaches 2^63, so no wrap-around modelling is
needed).  numpy reductions np.min / np.max over a nonempty array are
embedded as left folds.  Python asserts and raised exceptions are
embedded with Except String.
-/

namespace TEF

/-- np.max over an array, as a left fold; junk value 0 on the empty list
(the source raises on an empty array, every use below is guarded). -/
def listMax : List Int → Int
  | [] => 0
  | x :: xs => xs.foldl max x

/-- np.min over an array, as a left fold; junk value 0 on the empty list. -/
def listMin : List Int → Int
  | [] => 0
  | x :: xs => xs.foldl min x

theorem le_foldl_max (xs : List Int) (a : Int) : a ≤ xs.foldl max a := by
  induction xs generalizing a with
  | nil => simp
  | cons x xs ih => exact le_trans (le_max_left a x) (ih (max a x))

theorem mem_le_foldl_max (xs : List Int) (a x : Int) (hx : x ∈ xs) : x ≤ xs.foldl max a := by
  induction xs generalizing a with
  | nil => cases hx
  | cons y ys ih =>
    rcases List.mem_cons.mp hx with h | h
    · subst h; exact le_trans (le_max_right a x) (le_foldl_max ys (max a x))
    · exact ih (max a y) h

theorem foldl_min_le (xs : List Int) (a : Int) : xs.foldl min a ≤ a := by
  induction xs generalizing a with
  | nil => simp
  | cons x xs ih => exact le_trans (ih (min a x)) (min_le_left a x)

theorem foldl_min_le_mem (xs : List Int) (a x : Int) (hx : x ∈ xs) : xs.foldl min a ≤ x := by
  induction xs generalizing a with
  | nil => cases hx
  | cons y ys ih =>
    rcases List.mem_cons.mp hx with h | h
    · subst h; exact le_trans (foldl_min_le ys (min a x)) (min_le_right a x)
    · exact ih (min a y) h

theorem foldl_min_mem (xs : List Int) (a : Int) : xs.foldl min a = a ∨ xs.foldl min a ∈ xs := by
  induction xs generalizing a with
  | nil => left; rfl
  | cons y ys ih =>
    rw [List.foldl_cons]
    rcases ih (min a y) with h | h
    · rcases min_cases a y with ⟨he, _⟩ | ⟨he, _⟩
      · left; rw [h, he]
      · right; rw [h, he]; exact List.mem_cons_self y ys
    · right; exact List.mem_cons_of_mem y h

theorem le_listMax (l : List Int) (x : Int) (hx : x ∈ l) : x ≤ listMax l := by
  cases l with
  | nil => cases hx
  | cons y ys =>
    rcases List.mem_cons.mp hx with h | h
    · subst h; exact le_foldl_max ys x
    · exact mem_le_foldl_max ys y x h

theorem listMin_le (l : List Int) (x : Int) (hx : x ∈ l) : listMin l ≤ x := by
  cases l with
  | nil => cases hx
  | cons y ys =>
    rcases List.mem_cons.mp hx with h | h
    · subst h; exact foldl_min_le ys x
    · exact foldl_min_le_mem ys y x h

theorem listMin_mem (l : List Int) (h : l ≠ []) : listMin l ∈ l := by
  cases l with
  | nil => exact absurd rfl h
  | cons y ys =>
    rcases foldl_min_mem ys y with h' | h'
    · rw [listMin, h']; exact List.mem_cons_self y ys
    · exact List.mem_cons_of_mem y h'

/-- If every element of B occurs in A and every element of A dominates
some element of B, the two minima agree. -/
theorem listMin_eq_listMin (A B : List Int) (hB : B ≠ [])
    (h1 : ∀ b ∈ B, b ∈ A) (h2 : ∀ a ∈ A, ∃ b ∈ B, b ≤ a) :
    listMin A = listMin B := by
  have hA : A ≠ [] := by
    cases B with
    | nil => exact absurd rfl hB
    | cons b bs =>
      intro hAe
      have := h1 b (List.mem_cons_self b bs)
      rw [hAe] at this; cases this
  apply le_antisymm
  · exact listMin_le A (listMin B) (h1 _ (listMin_mem B hB))
  · obtain ⟨b, hbB, hble⟩ := h2 (listMin A) (listMin_mem A hA)
    exact le_trans (listMin_le B b hbB) hble

/-- UDBSCANx._sorted_ascending: counts the adjacent strictly descending
pairs (np.sum of array[1:] - array[:-1] < 0) and tests the count is zero. -/
def sortedAsc (xs : List Int) : Bool :=
  ((xs.zip xs.tail).countP (fun p => decide (p.2 - p.1 < 0))) = 0

theorem chain_le_iff_zip_tail (xs : List Int) :
    List.Chain' (· ≤ ·) xs ↔ ∀ p ∈ xs.zip xs.tail, p.1 ≤ p.2 := by
  induction xs with
  | nil => simp
  | cons x xs ih =>
    cases xs with
    | nil => simp
    | cons y ys =>
      rw [List.chain'_cons]
      constructor
      · rintro ⟨hxy, hc⟩ p hp
        rcases List.mem_cons.mp hp with h | h
        · subst h; exact hxy
        · exact (ih.mp hc) p h
      · intro h
        refine ⟨h (x, y) (List.mem_cons_self _ _), ih.mpr ?_⟩
        intro p hp
        exact h p (List.mem_cons_of_mem _ hp)

theorem sortedAsc_iff_chain (xs : List Int) :
    sortedAsc xs = true ↔ List.Chain' (· ≤ ·) xs := by
  rw [sortedAsc, decide_eq_true_iff, List.countP_eq_zero, chain_le_iff_zip_tail]
  constructor
  · intro h p hp
    have := h p hp
    simp only [decide_eq_true_eq] at this
    omega
  · intro h p hp
    have := h p hp
    simp only [decide_eq_true_eq]
    omega

theorem sortedAsc_iff_sorted (xs : List Int) :
    sortedAsc xs = true ↔ xs.Sorted (· ≤ ·) := by
  rw [sortedAsc_iff_chain, List.chain'_iff_pairwise]
  rfl

/-- The length-(n + 1 - k) array of consecutive-window spans
array[offset:] - array[:-offset] with offset = min_points - 1
(shared by core_distances, _fork_epsilon and _subcluster). -/
def spanArray (xs : List Int) (k : Nat) : List Int :=
  (List.range (xs.length + 1 - k)).map
    (fun j => xs.getD (j + (k - 1)) 0 - xs.getD j 0)

theorem spanArray_length (xs : List Int) (k : Nat) :
    (spanArray xs k).length = xs.length + 1 - k := by
  simp [spanArray]

theorem spanArray_getD (xs : List Int) (k : Nat) (j : Nat)
    (hj : j < xs.length + 1 - k) :
    (spanArray xs k).getD j 0 = xs.getD (j + (k - 1)) 0 - xs.getD j 0 := by
  rw [spanArray, List.getD_eq_getElem?_getD, List.getElem?_map,
    List.getElem?_range hj]
  rfl

/-- One column of the stacked 2-d minimum used by core_distances and
_fork_epsilon: row r of the stack holds ev shifted right by r (columns
r to r + len ev - 1), all remaining cells hold the fill value M; the
column value is the minimum down the rows. -/
def stackMinRow (ev : List Int) (M : Int) (rows : Nat) (c : Nat) : Int :=
  listMin ((List.range rows).map
    (fun r => if r ≤ c ∧ c - r < ev.length then ev.getD (c - r) 0 else M))

/-- The same column value computed directly as a window minimum over ev:
the minimum of ev over indices c + 1 - rows to min c (len ev - 1). -/
def windowMin (ev : List Int) (rows : Nat) (c : Nat) : Int :=
  listMin ((List.range' (c + 1 - rows) (min c (ev.length - 1) + 1 - (c + 1 - rows))).map
    (fun j => ev.getD j 0))

/-- The stacked column minimum with fill value listMax ev equals the
direct window minimum, whenever the window is nonempty. -/
theorem stackMinRow_eq_windowMin (ev : List Int) (rows : Nat) (c : Nat)
    (hrows : 1 ≤ rows) (hev : ev ≠ []) (hc : c < ev.length + rows - 1) :
    stackMinRow ev (listMax ev) rows c = windowMin ev rows c := by
  have hevlen : 0 < ev.length := List.length_pos.mpr hev
  apply listMin_eq_listMin
  · -- window list nonempty
    have : 0 < min c (ev.length - 1) + 1 - (c + 1 - rows) := by omega
    intro hmapnil
    rw [List.map_eq_nil_iff] at hmapnil
    have hlen := congrArg List.length hmapnil
    rw [List.length_range'] at hlen
    simp at hlen
    omega
  · -- every window entry occurs as a stack entry
    intro b hb
    rw [List.mem_map] at hb
    obtain ⟨j, hj, hjb⟩ := hb
    rw [List.mem_range'_1] at hj
    rw [List.mem_map]
    refine ⟨c - j, ?_, ?_⟩
    · rw [List.mem_range]; omega
    · have h1 : c - j ≤ c := by omega
      have h2 : c - (c - j) = j := by omega
      rw [if_pos ⟨h1, by omega⟩, h2, hjb]
  · -- every stack entry dominates some window entry
    intro a ha
    rw [List.mem_map] at ha
    obtain ⟨r, hr, hra⟩ := ha
    rw [List.mem_range] at hr
    by_cases hvalid : r ≤ c ∧ c - r < ev.length
    · refine ⟨ev.getD (c - r) 0, ?_, ?_⟩
      · rw [List.mem_map]
        refine ⟨c - r, ?_, rfl⟩
        rw [List.mem_range'_1]
        omega
      · rw [if_pos hvalid] at hra
        exact le_of_eq hra
    · -- fill value: dominate via any window entry
      refine ⟨ev.getD (c + 1 - rows) 0, ?_, ?_⟩
      · rw [List.mem_map]
        refine ⟨c + 1 - rows, ?_, rfl⟩
        rw [List.mem_range'_1]
        omega
      · rw [if_neg hvalid] at hra
        rw [← hra]
        have hm : ev.getD (c + 1 - rows) 0 ∈ ev := by
          rw [List.getD_eq_getElem ev 0 (by omega)]
          exact List.getElem_mem _
        exact le_listMax ev _ hm

/-- core_distances (cluster.py lines 6-31): stack min_points shifted
copies of the span array over a background of np.max(span array) and
take the column-wise minimum.  Defined for min_points ≥ 2 (the source
asserts min_points > 1). -/
def coreDistances (xs : List Int) (k : Nat) : List Int :=
  let ev := spanArray xs k
  (List.range xs.length).map (stackMinRow ev (listMax ev) k)

theorem coreDistances_length (xs : List Int) (k : Nat) :
    (coreDistances xs k).length = xs.length := by
  simp [coreDistances]

theorem coreDistances_getD (xs : List Int) (k : Nat) (i : Nat) (hi : i < xs.length) :
    (coreDistances xs k).getD i 0 =
      stackMinRow (spanArray xs k) (listMax (spanArray xs k)) k i := by
  rw [coreDistances, List.getD_eq_getElem?_getD, List.getElem?_map,
    List.getElem?_range hi]
  rfl

/-- C1: for every integer array X sorted ascending of length n and every
k with 2 ≤ k ≤ n, core_distances(X, k) returns an array D of length n
such that for every index i, D[i] equals the minimum of X[j+k-1] - X[j]
over all j with max(0, i-k+1) ≤ j ≤ min(n-k, i). -/
theorem C1_core_distances (xs : List Int) (k : Nat) (h2 : 2 ≤ k)
    (hk : k ≤ xs.length) (hs : sortedAsc xs = true) :
    (coreDistances xs k).length = xs.length ∧
    ∀ i, i < xs.length →
      (coreDistances xs k).getD i 0 =
        listMin ((List.range' (i + 1 - k)
            (min (xs.length - k) i + 1 - (i + 1 - k))).map
          (fun j => xs.getD (j + k - 1) 0 - xs.getD j 0)) := by
  refine ⟨coreDistances_length xs k, ?_⟩
  intro i hi
  have hevlen : (spanArray xs k).length = xs.length + 1 - k := spanArray_length xs k
  have hev : spanArray xs k ≠ [] := by
    intro h
    have := congrArg List.length h
    rw [hevlen] at this
    simp at this
    omega
  rw [coreDistances_getD xs k i hi,
    stackMinRow_eq_windowMin (spanArray xs k) k i (by omega) hev (by omega),
    windowMin]
  apply congrArg listMin
  have hmin : min i ((spanArray xs k).length - 1) = min (xs.length - k) i := by
    rw [hevlen]; omega
  rw [hmin]
  apply List.map_congr_left
  intro j hj
  rw [List.mem_range'_1] at hj
  have hjlt : j < xs.length + 1 - k := by omega
  rw [spanArray_getD xs k j hjlt]
  have : j + (k - 1) = j + k - 1 := by omega
  rw [this]

/-- Witness for C1 at X = [0, 1, 2, 10, 11], k = 3. -/
theorem C1_core_distances_witness :
    (2 ≤ 3 ∧ 3 ≤ ([0, 1, 2, 10, 11] : List Int).length ∧
      sortedAsc [0, 1, 2, 10, 11] = true) ∧
    ((coreDistances [0, 1, 2, 10, 11] 3).length = ([0, 1, 2, 10, 11] : List Int).length ∧
    ∀ i, i < ([0, 1, 2, 10, 11] : List Int).length →
      (coreDistances [0, 1, 2, 10, 11] 3).getD i 0 =
        listMin ((List.range' (i + 1 - 3)
            (min (([0, 1, 2, 10, 11] : List Int).length - 3) i + 1 - (i + 1 - 3))).map
          (fun j => ([0, 1, 2, 10, 11] : List Int).getD (j + 3 - 1) 0 -
            ([0, 1, 2, 10, 11] : List Int).getD j 0))) :=
  ⟨⟨by decide, by decide, by decide⟩,
    C1_core_distances [0, 1, 2, 10, 11] 3 (by decide) (by decide) (by decide)⟩

/-- Plateau removal helper: walking with the previous original element,
keep an element exactly when it differs from its predecessor
(gradients != 0 in _fork_epsilon). -/
def dedupAdjAux : Int → List Int → List Int
  | _, [] => []
  | prev, x :: rest =>
    if x = prev then dedupAdjAux x rest else x :: dedupAdjAux x rest

/-- Remove plateau runs: keep index 0 and every element that differs
from its predecessor. -/
def dedupAdj : List Int → List Int
  | [] => []
  | x :: rest => x :: dedupAdjAux x rest

/-- Strict-peak helper: an element is kept when it is greater than both
the element before it and the element after it; the final element is
never kept. -/
def strictPeaksAux : Int → List Int → List Int
  | _, [] => []
  | _, [_] => []
  | prev, x :: y :: rest =>
    if prev < x ∧ y < x then x :: strictPeaksAux x (y :: rest)
    else strictPeaksAux x (y :: rest)

/-- Retain only strict local peaks (np.logical_and of the shifted
comparisons in _fork_epsilon); the first and last element are never
peaks. -/
def strictPeaks : List Int → List Int
  | [] => []
  | x :: rest => strictPeaksAux x rest

/-- UDBSCANxH._fork_epsilon (cluster.py lines 352-423): stack
min_points - 1 shifted copies of the span array over a background of
np.max(span array) into len(span array) + min_points - 2 columns, take
the column minimum, remove plateaus, keep strict peaks, and return the
maximum peak; None when the array is too short or no peak survives. -/
def forkEpsilon (xs : List Int) (k : Nat) : Option Int :=
  if xs.length ≤ k then none
  else
    let ev := spanArray xs k
    let splits := (List.range (xs.length - 1)).map
      (stackMinRow ev (listMax ev) (k - 1))
    let peaks := strictPeaks (dedupAdj splits)
    if peaks = [] then none else some (listMax peaks)

/-- The coverage-minimum array of the specification (section 4.2),
computed directly as a sliding-window minimum of width k - 1 over the
span array. -/
def covMinSpec (xs : List Int) (k : Nat) : List Int :=
  (List.range (xs.length - 1)).map (windowMin (spanArray xs k) (k - 1))

/-- The fork-epsilon pipeline of the specification without the final
decrement: maximum strict peak of the plateau-free coverage-minimum
array, None when no peak survives. -/
def forkEpsilonSpec (xs : List Int) (k : Nat) : Option Int :=
  if xs.length ≤ k then none
  else
    let peaks := strictPeaks (dedupAdj (covMinSpec xs k))
    if peaks = [] then none else some (listMax peaks)

/-- The fork-epsilon value exactly as the claim words it: the maximum
surviving strict peak, decremented by 1. -/
def forkEpsilonClaim (xs : List Int) (k : Nat) : Option Int :=
  (forkEpsilonSpec xs k).map (fun v => v - 1)

/-- C2 counterexample: on X = [0, 1, 2, 10, 11, 12] with k = 2 the
maximum surviving strict peak is 8 and the source returns 8, not the
decremented 7 demanded by the claim (the callers, not the primitive,
apply the decrement). -/
theorem C2_counterexample :
    forkEpsilon [0, 1, 2, 10, 11, 12] 2 = some 8 ∧
    forkEpsilonClaim [0, 1, 2, 10, 11, 12] 2 = some 7 ∧
    forkEpsilon [0, 1, 2, 10, 11, 12] 2 ≠
      forkEpsilonClaim [0, 1, 2, 10, 11, 12] 2 := by
  refine ⟨by decide, by decide, by decide⟩

/-- C2 amended: for every sorted ascending integer array X and k ≥ 2,
the fork-epsilon primitive returns the maximum surviving strict local
peak WITHOUT decrementing (peaks taken from the coverage-minimum array
over windows of size k - 1 on the span array, after deleting plateau
runs), and returns None when no peak survives. -/
theorem C2_fork_epsilon (xs : List Int) (k : Nat) (h2 : 2 ≤ k)
    (hs : sortedAsc xs = true) :
    forkEpsilon xs k = forkEpsilonSpec xs k := by
  by_cases hlen : xs.length ≤ k
  · simp only [forkEpsilon, forkEpsilonSpec, if_pos hlen]
  · have hsp : (List.range (xs.length - 1)).map
        (stackMinRow (spanArray xs k) (listMax (spanArray xs k)) (k - 1)) =
        covMinSpec xs k := by
      rw [covMinSpec]
      apply List.map_congr_left
      intro c hc
      rw [List.mem_range] at hc
      have hevlen : (spanArray xs k).length = xs.length + 1 - k :=
        spanArray_length xs k
      apply stackMinRow_eq_windowMin
      · omega
      · intro h
        have := congrArg List.length h
        rw [hevlen] at this
        simp at this
        omega
      · omega
    simp only [forkEpsilon, forkEpsilonSpec, if_neg hlen, hsp]

/-- Witness for C2 amended at X = [0, 1, 2, 10, 11, 12], k = 2. -/
theorem C2_fork_epsilon_witness :
    (2 ≤ 2 ∧ sortedAsc [0, 1, 2, 10, 11, 12] = true) ∧
    forkEpsilon [0, 1, 2, 10, 11, 12] 2 =
      forkEpsilonSpec [0, 1, 2, 10, 11, 12] 2 :=
  ⟨⟨by decide, by decide⟩,
    C2_fork_epsilon [0, 1, 2, 10, 11, 12] 2 (by decide) (by decide)⟩

/-- UDBSCANx._subcluster (cluster.py lines 118-148): the slice
(j, j + min_points - 1 + 1) for every window start j whose span is at
most epsilon.  The source asserts the array is sorted; the check is
carried by clusterE below. -/
def subcluster (xs : List Int) (k : Nat) (eps : Int) : List (Nat × Nat) :=
  (List.range (xs.length + 1 - k)).filterMap (fun j =>
    if xs.getD (j + (k - 1)) 0 - xs.getD j 0 ≤ eps then
      some (j, j + (k - 1) + 1)
    else none)

/-- The generator _melter inside UDBSCANx._melt_slices: walk the
independently sorted lowers and uppers in lock step; a gap
(uppers[i-1] ≤ lowers[i], half-open slices) emits the current slice and
restarts, otherwise the upper bound is extended. -/
def meltSlicesAux : Nat → Nat → List (Nat × Nat) → List (Nat × Nat)
  | l, u, [] => [(l, u)]
  | l, u, (l2, u2) :: rest =>
    if u ≤ l2 then (l, u) :: meltSlicesAux l2 u2 rest
    else meltSlicesAux l u2 rest

/-- UDBSCANx._melt_slices (cluster.py lines 81-116): sort the lower and
upper bounds independently and run the melter walk.  The source indexes
element 0 and so raises on an empty array; every call site guards with
length > 1. -/
def meltSlices (slices : List (Nat × Nat)) : List (Nat × Nat) :=
  let lowers := (slices.map Prod.fst).insertionSort (· ≤ ·)
  let uppers := (slices.map Prod.snd).insertionSort (· ≤ ·)
  match lowers.zip uppers with
  | [] => []
  | (l, u) :: rest => meltSlicesAux l u rest

/-- UDBSCANx._cluster (cluster.py lines 150-174): subclusters, melted
when there are at least two. -/
def cluster (xs : List Int) (k : Nat) (eps : Int) : List (Nat × Nat) :=
  let slices := subcluster xs k eps
  if 1 < slices.length then meltSlices slices else slices

/-- UDBSCANx._cluster with the sorted-ascending assertion performed by
_subcluster. -/
def clusterE (xs : List Int) (k : Nat) (eps : Int) :
    Except String (List (Nat × Nat)) :=
  if sortedAsc xs then Except.ok (cluster xs k eps)
  else Except.error "AssertionError: array not sorted ascending"

/-- UDBSCANx.fit (cluster.py lines 176-188): assert sorted ascending,
then cluster; the resulting slices of the model. -/
def udcFit (k : Nat) (eps : Int) (xs : List Int) :
    Except String (List (Nat × Nat)) :=
  clusterE xs k eps

/-- C5 counterexample: two adjacent half-open slices whose bounds touch
(next lower equal to current upper) are NOT merged by the source, which
splits exactly when uppers[i-1] ≤ lowers[i]; the claim demands the
merged [(0, 4)]. -/
theorem C5_counterexample :
    meltSlices [(0, 2), (2, 4)] = [(0, 2), (2, 4)] ∧
    ([(0, 2), (2, 4)] : List (Nat × Nat)) ≠ [(0, 4)] := by
  refine ⟨by decide, by decide⟩

/-- C5 amended: for consecutive slices sorted by lower (and upper)
bound, the melt step merges exactly when the next lower bound is
STRICTLY below the current upper bound; touching slices are emitted
separately. -/
theorem C5_melt_slices (l1 u1 l2 u2 : Nat) (hl : l1 ≤ l2) (hu : u1 ≤ u2) :
    meltSlices [(l1, u1), (l2, u2)] =
      if l2 < u1 then [(l1, u2)] else [(l1, u1), (l2, u2)] := by
  by_cases hc : l2 < u1
  · have h1 : ¬ (u1 ≤ l2) := by omega
    simp [meltSlices, List.insertionSort, List.orderedInsert, hl, hu,
      meltSlicesAux, h1, hc]
  · have h1 : u1 ≤ l2 := by omega
    simp [meltSlices, List.insertionSort, List.orderedInsert, hl, hu,
      meltSlicesAux, h1, hc]

/-- Witness for C5 amended: overlapping slices (0,3), (1,5) merge
to (0,5). -/
theorem C5_melt_slices_witness :
    ((0 : Nat) ≤ 1 ∧ (3 : Nat) ≤ 5) ∧
    meltSlices [(0, 3), (1, 5)] =
      if 1 < 3 then [(0, 5)] else [(0, 3), (1, 5)] :=
  ⟨⟨by decide, by decide⟩, C5_melt_slices 0 3 1 5 (by decide) (by decide)⟩

theorem meltSlicesAux_head_fst (l u : Nat) (rest : List (Nat × Nat)) :
    ∃ u0 tl, meltSlicesAux l u rest = (l, u0) :: tl := by
  induction rest generalizing l u with
  | nil => exact ⟨u, [], rfl⟩
  | cons p rest ih =>
    obtain ⟨l2, u2⟩ := p
    rw [meltSlicesAux]
    by_cases h : u ≤ l2
    · rw [if_pos h]
      exact ⟨u, meltSlicesAux l2 u2 rest, rfl⟩
    · rw [if_neg h]
      exact ih l u2

/-- The melter walk output always has the consecutive-slices property
current.upper ≤ next.lower. -/
theorem meltSlicesAux_chain (l u : Nat) (rest : List (Nat × Nat)) :
    List.Chain' (fun a b : Nat × Nat => a.2 ≤ b.1) (meltSlicesAux l u rest) := by
  induction rest generalizing l u with
  | nil => simp [meltSlicesAux]
  | cons p rest ih =>
    obtain ⟨l2, u2⟩ := p
    rw [meltSlicesAux]
    by_cases h : u ≤ l2
    · rw [if_pos h]
      obtain ⟨u0, tl, heq⟩ := meltSlicesAux_head_fst l2 u2 rest
      rw [heq, List.chain'_cons]
      exact ⟨h, heq ▸ ih l2 u2⟩
    · rw [if_neg h]
      exact ih l u2

/-- Every bound appearing in the melter output appears among the input
bounds. -/
theorem meltSlicesAux_mem (l u : Nat) (rest : List (Nat × Nat)) :
    ∀ p ∈ meltSlicesAux l u rest,
      p.1 ∈ l :: rest.map Prod.fst ∧ p.2 ∈ u :: rest.map Prod.snd := by
  induction rest generalizing l u with
  | nil =>
    intro p hp
    rw [meltSlicesAux, List.mem_singleton] at hp
    subst hp
    exact ⟨List.mem_cons_self _ _, List.mem_cons_self _ _⟩
  | cons q rest ih =>
    obtain ⟨l2, u2⟩ := q
    intro p hp
    rw [meltSlicesAux] at hp
    by_cases h : u ≤ l2
    · rw [if_pos h] at hp
      rcases List.mem_cons.mp hp with h' | h'
      · subst h'
        exact ⟨List.mem_cons_self _ _, List.mem_cons_self _ _⟩
      · obtain ⟨h1, h2⟩ := ih l2 u2 p h'
        refine ⟨?_, ?_⟩
        · rcases List.mem_cons.mp h1 with h'' | h'' <;>
            simp [h'']
        · rcases List.mem_cons.mp h2 with h'' | h'' <;>
            simp [h'']
    · rw [if_neg h] at hp
      obtain ⟨h1, h2⟩ := ih l u2 p hp
      refine ⟨?_, ?_⟩
      · rcases List.mem_cons.mp h1 with h'' | h'' <;> simp [h'']
      · rcases List.mem_cons.mp h2 with h'' | h'' <;> simp [h'']

/-- If the running slice is nonempty, all input slices are nonempty and
the upper bounds arrive ascending, every emitted slice is nonempty. -/
theorem meltSlicesAux_fst_lt_snd (l u : Nat) (rest : List (Nat × Nat))
    (hlu : l < u) (hwf : ∀ p ∈ rest, p.1 < p.2)
    (hup : List.Chain' (· ≤ ·) (u :: rest.map Prod.snd)) :
    ∀ p ∈ meltSlicesAux l u rest, p.1 < p.2 := by
  induction rest generalizing l u with
  | nil =>
    intro p hp
    rw [meltSlicesAux, List.mem_singleton] at hp
    subst hp
    exact hlu
  | cons q rest ih =>
    obtain ⟨l2, u2⟩ := q
    have hu2 : u ≤ u2 := (List.chain'_cons.mp hup).1
    have hup' : List.Chain' (· ≤ ·) (u2 :: rest.map Prod.snd) :=
      (List.chain'_cons.mp hup).2
    intro p hp
    rw [meltSlicesAux] at hp
    by_cases h : u ≤ l2
    · rw [if_pos h] at hp
      rcases List.mem_cons.mp hp with h' | h'
      · subst h'; exact hlu
      · exact ih l2 u2 (hwf (l2, u2) (List.mem_cons_self _ _))
          (fun q hq => hwf q (List.mem_cons_of_mem _ hq)) hup' p h'
    · rw [if_neg h] at hp
      exact ih l u2 (lt_of_lt_of_le hlu hu2)
        (fun q hq => hwf q (List.mem_cons_of_mem _ hq)) hup' p hp

/-- Combined properties of _melt_slices on input whose lower bounds and
upper bounds are each already ascending and whose slices are nonempty
(exactly the shape produced by _subcluster). -/
theorem meltSlices_props (slices : List (Nat × Nat))
    (hl : (slices.map Prod.fst).Sorted (· ≤ ·))
    (hu : (slices.map Prod.snd).Sorted (· ≤ ·))
    (hwf : ∀ p ∈ slices, p.1 < p.2) :
    List.Chain' (fun a b : Nat × Nat => a.2 ≤ b.1) (meltSlices slices) ∧
    (∀ p ∈ meltSlices slices, p.1 < p.2) ∧
    (∀ p ∈ meltSlices slices,
      p.1 ∈ slices.map Prod.fst ∧ p.2 ∈ slices.map Prod.snd) := by
  have hsl : (slices.map Prod.fst).insertionSort (· ≤ ·) = slices.map Prod.fst :=
    List.Sorted.insertionSort_eq hl
  have hsu : (slices.map Prod.snd).insertionSort (· ≤ ·) = slices.map Prod.snd :=
    List.Sorted.insertionSort_eq hu
  have hzip : (slices.map Prod.fst).zip (slices.map Prod.snd) = slices :=
    (List.zip_of_prod rfl rfl).symm
  rw [meltSlices]
  rw [hsl, hsu, hzip]
  cases slices with
  | nil => exact ⟨List.chain'_nil, by simp, by simp⟩
  | cons q rest =>
    obtain ⟨l, u⟩ := q
    refine ⟨meltSlicesAux_chain l u rest, ?_, ?_⟩
    · apply meltSlicesAux_fst_lt_snd l u rest
      · exact hwf (l, u) (List.mem_cons_self _ _)
      · exact fun p hp => hwf p (List.mem_cons_of_mem _ hp)
      · have hc := List.chain'_iff_pairwise.mpr hu
        simpa using hc
    · intro p hp
      exact meltSlicesAux_mem l u rest p hp

theorem subcluster_mem (xs : List Int) (k : Nat) (eps : Int) (p : Nat × Nat)
    (hp : p ∈ subcluster xs k eps) :
    ∃ j, j < xs.length + 1 - k ∧ p = (j, j + (k - 1) + 1) := by
  rw [subcluster, List.mem_filterMap] at hp
  obtain ⟨j, hj, hsome⟩ := hp
  rw [List.mem_range] at hj
  by_cases hcond : xs.getD (j + (k - 1)) 0 - xs.getD j 0 ≤ eps
  · rw [if_pos hcond] at hsome
    exact ⟨j, hj, (Option.some_inj.mp hsome).symm⟩
  · rw [if_neg hcond] at hsome
    cases hsome

theorem subcluster_pairwise (xs : List Int) (k : Nat) (eps : Int) :
    List.Pairwise (fun p q : Nat × Nat => p.1 < q.1 ∧ p.2 < q.2)
      (subcluster xs k eps) := by
  rw [subcluster]
  refine List.Pairwise.filterMap _ ?_ (List.pairwise_lt_range _)
  intro a b hab x hx y hy
  have hxv : x = (a, a + (k - 1) + 1) := by
    by_cases hc : xs.getD (a + (k - 1)) 0 - xs.getD a 0 ≤ eps
    · rw [if_pos hc] at hx; exact Option.some_inj.mp hx.symm ▸ rfl
    · rw [if_neg hc] at hx; cases hx
  have hyv : y = (b, b + (k - 1) + 1) := by
    by_cases hc : xs.getD (b + (k - 1)) 0 - xs.getD b 0 ≤ eps
    · rw [if_pos hc] at hy; exact Option.some_inj.mp hy.symm ▸ rfl
    · rw [if_neg hc] at hy; cases hy
  subst hxv hyv
  exact ⟨hab, by omega⟩

theorem cluster_props (xs : List Int) (k : Nat) (eps : Int) (hk : 1 ≤ k) :
    List.Chain' (fun a b : Nat × Nat => a.2 ≤ b.1) (cluster xs k eps) ∧
    ∀ p ∈ cluster xs k eps, p.1 < p.2 ∧ p.2 ≤ xs.length := by
  have hpw := subcluster_pairwise xs k eps
  have hwf : ∀ p ∈ subcluster xs k eps, p.1 < p.2 ∧ p.2 ≤ xs.length := by
    intro p hp
    obtain ⟨j, hj, hpe⟩ := subcluster_mem xs k eps p hp
    subst hpe
    constructor
    · simp; omega
    · simp; omega
  rw [cluster]
  by_cases h : 1 < (subcluster xs k eps).length
  · rw [if_pos h]
    have hl : ((subcluster xs k eps).map Prod.fst).Sorted (· ≤ ·) :=
      List.pairwise_map.mpr (hpw.imp (fun hpq => le_of_lt hpq.1))
    have hu : ((subcluster xs k eps).map Prod.snd).Sorted (· ≤ ·) :=
      List.pairwise_map.mpr (hpw.imp (fun hpq => le_of_lt hpq.2))
    obtain ⟨hchain, hnonempty, hmem⟩ :=
      meltSlices_props (subcluster xs k eps) hl hu (fun p hp => (hwf p hp).1)
    refine ⟨hchain, ?_⟩
    intro p hp
    refine ⟨hnonempty p hp, ?_⟩
    obtain ⟨_, h2⟩ := hmem p hp
    rw [List.mem_map] at h2
    obtain ⟨q, hq, hq2⟩ := h2
    rw [← hq2]
    exact (hwf q hq).2
  · rw [if_neg h]
    refine ⟨?_, hwf⟩
    rcases hsc : subcluster xs k eps with _ | ⟨a, _ | ⟨b, t⟩⟩
    · exact List.chain'_nil
    · exact List.chain'_singleton a
    · rw [hsc] at h
      simp at h

/-- The support calculation method of UDBSCANxH; the constructor
asserts membership of {aggressive, conservative}, so the unrecognised
branch of _traverse_cluster_tree is unreachable. -/
inductive Method where
  | conservative : Method
  | aggressive : Method
deriving DecidableEq

/-- One element of the structured points array of UDBSCANxH._run with
slots value, index and core_dist. -/
structure PointR where
  value : Int
  index : Nat
  coreDist : Int
deriving DecidableEq

/-- The structured points array: values, original indices 0..n-1 and
core distances. -/
def mkPoints (xs cores : List Int) : List PointR :=
  (List.range xs.length).map (fun i => ⟨xs.getD i 0, i, cores.getD i 0⟩)

/-- np.sum over an integer array. -/
def intSum (l : List Int) : Int := l.foldl (· + ·) 0

/-- local_points['index'][0]. -/
def firstIndex (pts : List PointR) : Nat := (pts.map (fun p => p.index)).headD 0

/-- local_points['index'][-1]. -/
def lastIndex (pts : List PointR) : Nat := (pts.map (fun p => p.index)).getLastD 0

/-- Sequencing of Except computations over a list, as produced by the
list comprehensions in _traverse_cluster_tree and _run. -/
def mapExcept {α β : Type} (f : α → Except String β) : List α → Except String (List β)
  | [] => Except.ok []
  | a :: as =>
    match f a with
    | Except.error e => Except.error e
    | Except.ok b =>
      match mapExcept f as with
      | Except.error e => Except.error e
      | Except.ok bs => Except.ok (b :: bs)

/-- Parent support of _traverse_cluster_tree: np.sum of the global
(conservative) or local (aggressive) epsilon ceiling minus
np.maximum(local_min_eps, core_dist); the unrecognised-method ValueError
branch is unreachable because Method is an enumeration. -/
def supportOf (meth : Method) (globalMaxEps localMaxEps f : Int)
    (pts : List PointR) : Int :=
  match meth with
  | Method.aggressive =>
    intSum (pts.map (fun p => localMaxEps - max f p.coreDist))
  | Method.conservative =>
    intSum (pts.map (fun p => globalMaxEps - max f p.coreDist))

/-- np.sum(np.maximum(0, local_min_eps - core_dist)): combined support
of the child clusters. -/
def childSupport (f : Int) (pts : List PointR) : Int :=
  intSum (pts.map (fun p => max 0 (f - p.coreDist)))

/-- UDBSCANxH._traverse_cluster_tree (cluster.py lines 446-515).  The
source recursion terminates only because every child cluster is
strictly smaller than its parent; the embedding makes this explicit
with a fuel argument and, when the fuel is exhausted, emits the current
cluster (the shape also produced by the no-fork and supported cases, so
the output invariants are those of the source for every fuel value).
The nested result lists of the source are flattened on the way up,
exactly as _flatten_list does after the recursion. -/
def traverse (k : Nat) (meth : Method) (globalMaxEps : Int) :
    Nat → List PointR → Int → Except String (List (Nat × Nat))
  | fuel, pts, localMaxEps =>
    match forkEpsilon (pts.map (fun p => p.value)) k with
    | none => Except.ok [(firstIndex pts, lastIndex pts + 1)]
    | some f =>
      if childSupport f pts ≤ supportOf meth globalMaxEps localMaxEps f pts then
        Except.ok [(firstIndex pts, lastIndex pts + 1)]
      else
        match fuel with
        | 0 => Except.ok [(firstIndex pts, lastIndex pts + 1)]
        | fuel' + 1 =>
          match clusterE (pts.map (fun p => p.value)) k (f - 1) with
          | Except.error e => Except.error e
          | Except.ok bounds =>
            match mapExcept (fun b : Nat × Nat =>
                traverse k meth globalMaxEps fuel'
                  ((pts.drop b.1).take (b.2 - b.1)) f) bounds with
            | Except.error e => Except.error e
            | Except.ok nested => Except.ok nested.flatten

/-- The default for an unset max_eps: the root fork epsilon minus one;
with no fork the source evaluates None - 1 and raises a TypeError. -/
def rootForkE (xs : List Int) (k : Nat) : Except String Int :=
  match forkEpsilon xs k with
  | none => Except.error "TypeError: unsupported operand None - int"
  | some f => Except.ok (f - 1)

/-- The effective max_eps: `if not self.max_eps` is Python truthiness, so
both None and 0 trigger the root-fork default. -/
def maxEpsE (maxEps : Option Int) (xs : List Int) (k : Nat) :
    Except String Int :=
  match maxEps with
  | some e => if e = 0 then rootForkE xs k else Except.ok e
  | none => rootForkE xs k

/-- Core distances raised to min_eps when it is set and nonzero
(`if self.min_eps` is Python truthiness). -/
def coresWithFloor (minEps : Option Int) (xs : List Int) (k : Nat) :
    List Int :=
  match minEps with
  | some m =>
    if m = 0 then coreDistances xs k
    else (coreDistances xs k).map (fun c => max m c)
  | none => coreDistances xs k

/-- UDBSCANxH._run (cluster.py lines 517-567): assert sorted, bail out
below min_points, build the points array, default max_eps to the root
fork epsilon minus one when unset or zero (raising the TypeError of
None - 1 when there is no fork), raise core distances to min_eps when
set and nonzero, seed with flat clusters at max_eps and traverse each
seed. -/
def hudcRun (k : Nat) (maxEps minEps : Option Int) (meth : Method)
    (fuel : Nat) (xs : List Int) : Except String (List (Nat × Nat)) :=
  if sortedAsc xs then
    if xs.length < k then Except.ok []
    else
      match maxEpsE maxEps xs k with
      | Except.error e => Except.error e
      | Except.ok maxE =>
        match clusterE xs k maxE with
        | Except.error e => Except.error e
        | Except.ok bounds =>
          match mapExcept (fun b : Nat × Nat =>
              traverse k meth maxE fuel
                (((mkPoints xs (coresWithFloor minEps xs k)).drop b.1).take
                  (b.2 - b.1)) maxE) bounds with
          | Except.error e => Except.error e
          | Except.ok nested => Except.ok nested.flatten
  else Except.error "AssertionError: array not sorted ascending"

/-- UDBSCANxH.fit (cluster.py lines 569-578): copy the input and run. -/
def hudcFit (k : Nat) (maxEps minEps : Option Int) (meth : Method)
    (fuel : Nat) (xs : List Int) : Except String (List (Nat × Nat)) :=
  hudcRun k maxEps minEps meth fuel xs

theorem getLastD_eq_getD (l : List Nat) (d : Nat) (h : l ≠ []) :
    l.getLastD d = l.getD (l.length - 1) 0 := by
  induction l generalizing d with
  | nil => exact absurd rfl h
  | cons x xs ih =>
    cases xs with
    | nil => rfl
    | cons y ys =>
      rw [List.getLastD_cons, ih x (by simp)]
      simp only [List.length_cons]
      rw [Nat.add_sub_cancel]
      rfl

/-- The index column of a points slice is consecutive starting at base. -/
def IdxConsec (pts : List PointR) (base : Nat) : Prop :=
  ∀ i (h : i < pts.length), (pts[i]).index = base + i

theorem firstIndex_eq (pts : List PointR) (base : Nat) (hne : pts ≠ [])
    (hidx : IdxConsec pts base) : firstIndex pts = base := by
  cases pts with
  | nil => exact absurd rfl hne
  | cons p rest =>
    have := hidx 0 (by simp)
    simpa [firstIndex] using this

theorem lastIndex_eq (pts : List PointR) (base : Nat) (hne : pts ≠ [])
    (hidx : IdxConsec pts base) :
    lastIndex pts = base + pts.length - 1 := by
  have hlen : 0 < pts.length := List.length_pos.mpr hne
  have hmapne : pts.map (fun p => p.index) ≠ [] := by
    simp [List.map_eq_nil_iff]
    intro h; exact hne h
  rw [lastIndex, getLastD_eq_getD _ 0 hmapne]
  have hlt : (pts.map (fun p => p.index)).length - 1 <
      (pts.map (fun p => p.index)).length := by
    rw [List.length_map]; omega
  rw [List.getD_eq_getElem _ 0 hlt, List.getElem_map]
  simp only [List.length_map]
  rw [hidx (pts.length - 1) (by omega)]
  omega

theorem idxConsec_slice (pts : List PointR) (base : Nat)
    (hidx : IdxConsec pts base) (l u : Nat) (hu : u ≤ pts.length) :
    IdxConsec ((pts.drop l).take (u - l)) (base + l) := by
  intro i h
  have hlen : ((pts.drop l).take (u - l)).length = min (u - l) (pts.length - l) := by
    simp
  have hi : l + i < pts.length := by
    rw [hlen] at h; omega
  have h1 : ((pts.drop l).take (u - l))[i] = pts[l + i] := by
    rw [List.getElem_take, List.getElem_drop]
  rw [h1, hidx (l + i) hi]
  omega

theorem slice_length (pts : List PointR) (l u : Nat) (hul : l < u)
    (hu : u ≤ pts.length) :
    ((pts.drop l).take (u - l)).length = u - l := by
  simp
  omega

theorem mkPoints_length (xs cores : List Int) :
    (mkPoints xs cores).length = xs.length := by
  simp [mkPoints]

theorem mkPoints_idxConsec (xs cores : List Int) :
    IdxConsec (mkPoints xs cores) 0 := by
  intro i h
  rw [mkPoints_length] at h
  simp [mkPoints]

theorem mapExcept_ok {α β : Type} (f : α → Except String β) :
    ∀ (l : List α) (ys : List β), mapExcept f l = Except.ok ys →
      List.Forall₂ (fun a b => f a = Except.ok b) l ys := by
  intro l
  induction l with
  | nil =>
    intro ys h
    rw [mapExcept] at h
    injection h with h
    subst h
    exact List.Forall₂.nil
  | cons a as ih =>
    intro ys h
    rw [mapExcept] at h
    cases hfa : f a with
    | error e => rw [hfa] at h; cases h
    | ok b =>
      rw [hfa] at h
      cases hrec : mapExcept f as with
      | error e => rw [hrec] at h; cases h
      | ok bs =>
        rw [hrec] at h
        injection h with h
        subst h
        exact List.Forall₂.cons hfa (ih bs hrec)

theorem forall₂_imp_mem {α β : Type} {R S : α → β → Prop} :
    ∀ {l1 : List α} {l2 : List β}, List.Forall₂ R l1 l2 →
      (∀ a ∈ l1, ∀ b, R a b → S a b) → List.Forall₂ S l1 l2 := by
  intro l1 l2 h
  induction h with
  | nil => intro _; exact List.Forall₂.nil
  | @cons a b as bs hR htail ih =>
    intro himp
    exact List.Forall₂.cons (himp a (List.mem_cons_self _ _) b hR)
      (ih fun x hx y hR' => himp x (List.mem_cons_of_mem _ hx) y hR')

theorem chain_bounds_le (b : Nat × Nat) (bs : List (Nat × Nat))
    (hch : List.Chain' (fun a c : Nat × Nat => a.2 ≤ c.1) (b :: bs))
    (hwf : ∀ x ∈ b :: bs, x.1 < x.2) :
    ∀ q ∈ bs, b.2 ≤ q.1 := by
  induction bs generalizing b with
  | nil => intro q hq; cases hq
  | cons c cs ih =>
    intro q hq
    have h1 : b.2 ≤ c.1 := (List.chain'_cons.mp hch).1
    have h2 := (List.chain'_cons.mp hch).2
    rcases List.mem_cons.mp hq with h | h
    · subst h; exact h1
    · have hc := hwf c (List.mem_cons_of_mem _ (List.mem_cons_self _ _))
      have := ih c h2 (fun x hx => hwf x (List.mem_cons_of_mem _ hx)) q h
      omega

/-- Assembling the flattened traversal results: per-sibling chains whose
slices stay inside pairwise-ascending sibling windows concatenate to a
global chain. -/
theorem chain_flatten_bounded (base : Nat) :
    ∀ {bounds : List (Nat × Nat)} {results : List (List (Nat × Nat))},
      List.Forall₂ (fun (b : Nat × Nat) (r : List (Nat × Nat)) =>
        List.Chain' (fun a c : Nat × Nat => a.2 ≤ c.1) r ∧
        ∀ p ∈ r, base + b.1 ≤ p.1 ∧ p.1 < p.2 ∧ p.2 ≤ base + b.2)
        bounds results →
      List.Chain' (fun a c : Nat × Nat => a.2 ≤ c.1) bounds →
      (∀ b ∈ bounds, b.1 < b.2) →
      List.Chain' (fun a c : Nat × Nat => a.2 ≤ c.1) results.flatten ∧
      ∀ p ∈ results.flatten, ∃ b ∈ bounds,
        base + b.1 ≤ p.1 ∧ p.1 < p.2 ∧ p.2 ≤ base + b.2 := by
  intro bounds results h
  induction h with
  | nil => intro _ _; exact ⟨List.chain'_nil, by simp⟩
  | @cons b r bs rs hbr htail ih =>
    intro hch hwf
    have hch' : List.Chain' (fun a c : Nat × Nat => a.2 ≤ c.1) bs :=
      (List.chain'_cons'.mp hch).2
    obtain ⟨ihchain, ihmem⟩ :=
      ih hch' (fun x hx => hwf x (List.mem_cons_of_mem _ hx))
    constructor
    · show List.Chain' _ (r ++ rs.flatten)
      apply List.Chain'.append hbr.1 ihchain
      intro x hx y hy
      have hxr : x ∈ r := List.mem_of_mem_getLast? hx
      have hyr : y ∈ rs.flatten := List.mem_of_mem_head? hy
      have hx2 := (hbr.2 x hxr).2.2
      obtain ⟨b', hb', hy1, _, _⟩ := ihmem y hyr
      have hble : b.2 ≤ b'.1 := chain_bounds_le b bs hch hwf b' hb'
      omega
    · intro p hp
      rcases List.mem_append.mp hp with h | h
      · exact ⟨b, List.mem_cons_self _ _, hbr.2 p h⟩
      · obtain ⟨b', hb', hprop⟩ := ihmem p h
        exact ⟨b', List.mem_cons_of_mem _ hb', hprop⟩

theorem clusterE_ok (xs : List Int) (k : Nat) (eps : Int)
    (bounds : List (Nat × Nat)) (h : clusterE xs k eps = Except.ok bounds) :
    bounds = cluster xs k eps := by
  rw [clusterE] at h
  split at h
  · injection h with h; exact h.symm
  · cases h

theorem emit_singleton_props (pts : List PointR) (base : Nat) (hne : pts ≠ [])
    (hidx : IdxConsec pts base) :
    List.Chain' (fun a c : Nat × Nat => a.2 ≤ c.1)
      [(firstIndex pts, lastIndex pts + 1)] ∧
    ∀ p ∈ [(firstIndex pts, lastIndex pts + 1)],
      base ≤ p.1 ∧ p.1 < p.2 ∧ p.2 ≤ base + pts.length := by
  have h1 := firstIndex_eq pts base hne hidx
  have h2 := lastIndex_eq pts base hne hidx
  have hlen : 0 < pts.length := List.length_pos.mpr hne
  refine ⟨List.chain'_singleton _, ?_⟩
  intro p hp
  rw [List.mem_singleton] at hp
  subst hp
  simp only [h1, h2]
  omega

/-- Core invariant of the hierarchical traversal: for a nonempty points
slice whose index column is consecutive from base, every successful
traversal emits slices that are ascending (upper of one at most lower
of the next), nonempty, and contained in [base, base + length). -/
theorem traverse_props (k : Nat) (meth : Method) (gE : Int) (hk : 1 ≤ k) :
    ∀ (fuel : Nat) (pts : List PointR) (lE : Int) (base : Nat)
      (out : List (Nat × Nat)),
      pts ≠ [] → IdxConsec pts base →
      traverse k meth gE fuel pts lE = Except.ok out →
      List.Chain' (fun a c : Nat × Nat => a.2 ≤ c.1) out ∧
      ∀ p ∈ out, base ≤ p.1 ∧ p.1 < p.2 ∧ p.2 ≤ base + pts.length := by
  intro fuel
  induction fuel with
  | zero =>
    intro pts lE base out hne hidx hout
    rw [traverse] at hout
    split at hout
    · injection hout with h
      subst h
      exact emit_singleton_props pts base hne hidx
    · split at hout
      · injection hout with h
        subst h
        exact emit_singleton_props pts base hne hidx
      · have hout2 : Except.ok (ε := String)
            [(firstIndex pts, lastIndex pts + 1)] = Except.ok out := hout
        injection hout2 with h
        subst h
        exact emit_singleton_props pts base hne hidx
  | succ fuel' ih =>
    intro pts lE base out hne hidx hout
    rw [traverse] at hout
    split at hout
    · injection hout with h
      subst h
      exact emit_singleton_props pts base hne hidx
    · rename_i f hfork
      split at hout
      · injection hout with h
        subst h
        exact emit_singleton_props pts base hne hidx
      · have hout2 : (match clusterE (pts.map (fun p => p.value)) k (f - 1) with
            | Except.error e => Except.error e
            | Except.ok bounds =>
              match mapExcept (fun b : Nat × Nat =>
                  traverse k meth gE fuel'
                    ((pts.drop b.1).take (b.2 - b.1)) f) bounds with
              | Except.error e => Except.error e
              | Except.ok nested => Except.ok nested.flatten) =
            Except.ok out := hout
        clear hout
        split at hout2
        · cases hout2
        · rename_i bounds hclE
          split at hout2
          · cases hout2
          · rename_i nested hmap
            injection hout2 with h
            subst h
            have hbounds := clusterE_ok _ _ _ _ hclE
            subst hbounds
            have hvlen : (pts.map (fun p => p.value)).length = pts.length :=
              List.length_map _ _
            obtain ⟨hchainB, hwfB⟩ :=
              cluster_props (pts.map (fun p => p.value)) k (f - 1) hk
            have hfa := mapExcept_ok _ _ _ hmap
            have hfa2 : List.Forall₂ (fun (b : Nat × Nat) (r : List (Nat × Nat)) =>
                List.Chain' (fun a c : Nat × Nat => a.2 ≤ c.1) r ∧
                ∀ p ∈ r, base + b.1 ≤ p.1 ∧ p.1 < p.2 ∧ p.2 ≤ base + b.2)
                (cluster (pts.map (fun p => p.value)) k (f - 1)) nested := by
              apply forall₂_imp_mem hfa
              intro b hb r hr
              have hwb := hwfB b hb
              rw [hvlen] at hwb
              have hslen : ((pts.drop b.1).take (b.2 - b.1)).length = b.2 - b.1 :=
                slice_length pts b.1 b.2 hwb.1 hwb.2
              have hsne : (pts.drop b.1).take (b.2 - b.1) ≠ [] := by
                intro hnil
                rw [hnil] at hslen
                simp at hslen
                omega
              have hsidx := idxConsec_slice pts base hidx b.1 b.2 hwb.2
              obtain ⟨hc, hm⟩ := ih _ f (base + b.1) r hsne hsidx hr
              refine ⟨hc, ?_⟩
              intro p hp
              have := hm p hp
              rw [hslen] at this
              exact ⟨this.1, this.2.1, by omega⟩
            obtain ⟨hcf, hmemf⟩ := chain_flatten_bounded base hfa2 hchainB
              (fun b hb => (hwfB b hb).1)
            refine ⟨hcf, ?_⟩
            intro p hp
            obtain ⟨b, hb, hp1, hp2, hp3⟩ := hmemf p hp
            have hwb := hwfB b hb
            rw [hvlen] at hwb
            exact ⟨by omega, hp2, by omega⟩

theorem hudcRun_props (k : Nat) (maxE minE : Option Int) (meth : Method)
    (fuel : Nat) (xs : List Int) (out : List (Nat × Nat)) (hk : 1 ≤ k)
    (hout : hudcRun k maxE minE meth fuel xs = Except.ok out) :
    List.Chain' (fun a c : Nat × Nat => a.2 ≤ c.1) out ∧
    ∀ p ∈ out, p.1 < p.2 ∧ p.2 ≤ xs.length := by
  rw [hudcRun] at hout
  split at hout
  · split at hout
    · injection hout with h
      subst h
      exact ⟨List.chain'_nil, by simp⟩
    · split at hout
      · cases hout
      · rename_i maxEv hmaxE
        split at hout
        · cases hout
        · rename_i bounds hclE
          split at hout
          · cases hout
          · rename_i nested hmap
            injection hout with h
            subst h
            have hbounds := clusterE_ok _ _ _ _ hclE
            subst hbounds
            obtain ⟨hchainB, hwfB⟩ := cluster_props xs k maxEv hk
            have hfa := mapExcept_ok _ _ _ hmap
            have hptslen : (mkPoints xs (coresWithFloor minE xs k)).length =
                xs.length := mkPoints_length _ _
            have hidx0 := mkPoints_idxConsec xs (coresWithFloor minE xs k)
            have hfa2 : List.Forall₂ (fun (b : Nat × Nat) (r : List (Nat × Nat)) =>
                List.Chain' (fun a c : Nat × Nat => a.2 ≤ c.1) r ∧
                ∀ p ∈ r, 0 + b.1 ≤ p.1 ∧ p.1 < p.2 ∧ p.2 ≤ 0 + b.2)
                (cluster xs k maxEv) nested := by
              apply forall₂_imp_mem hfa
              intro b hb r hr
              have hwb := hwfB b hb
              have hwb2 : b.2 ≤ (mkPoints xs (coresWithFloor minE xs k)).length := by
                rw [hptslen]; exact hwb.2
              have hslen := slice_length _ b.1 b.2 hwb.1 hwb2
              have hsne : ((mkPoints xs (coresWithFloor minE xs k)).drop b.1).take
                  (b.2 - b.1) ≠ [] := by
                intro hnil
                rw [hnil] at hslen
                simp at hslen
                omega
              have hsidx := idxConsec_slice _ 0 hidx0 b.1 b.2 hwb2
              obtain ⟨hc, hm⟩ := traverse_props k meth maxEv hk fuel _ maxEv
                (0 + b.1) r hsne hsidx hr
              refine ⟨hc, ?_⟩
              intro p hp
              have := hm p hp
              rw [hslen] at this
              exact ⟨this.1, this.2.1, by omega⟩
            obtain ⟨hcf, hmemf⟩ := chain_flatten_bounded 0 hfa2 hchainB
              (fun b hb => (hwfB b hb).1)
            refine ⟨hcf, ?_⟩
            intro p hp
            obtain ⟨b, hb, hp1, hp2, hp3⟩ := hmemf p hp
            have hwb := hwfB b hb
            exact ⟨hp2, by omega⟩
  · cases hout

/-- C3: for every sorted ascending integer array X and valid
parameters, the index slices emitted by the flat clusterer
(UDBSCANx.fit) and by the hierarchical clusterer (UDBSCANxH.fit) are
pairwise disjoint and ascending: every slice is nonempty and for
consecutive half-open slices (l1, u1), (l2, u2), u1 ≤ l2. -/
theorem C3_output_slices (xs : List Int) (k : Nat) (eps : Int)
    (maxE minE : Option Int) (meth : Method) (fuel : Nat) (hk : 2 ≤ k)
    (hs : sortedAsc xs = true) :
    (∀ s, udcFit k eps xs = Except.ok s →
      List.Chain' (fun a c : Nat × Nat => a.2 ≤ c.1) s ∧ ∀ p ∈ s, p.1 < p.2) ∧
    (∀ s, hudcFit k maxE minE meth fuel xs = Except.ok s →
      List.Chain' (fun a c : Nat × Nat => a.2 ≤ c.1) s ∧ ∀ p ∈ s, p.1 < p.2) := by
  constructor
  · intro s hfit
    rw [udcFit] at hfit
    have hbounds := clusterE_ok _ _ _ _ hfit
    subst hbounds
    obtain ⟨hchain, hwf⟩ := cluster_props xs k eps (by omega)
    exact ⟨hchain, fun p hp => (hwf p hp).1⟩
  · intro s hfit
    rw [hudcFit] at hfit
    obtain ⟨hchain, hwf⟩ := hudcRun_props k maxE minE meth fuel xs s
      (by omega) hfit
    exact ⟨hchain, fun p hp => (hwf p hp).1⟩

/-- Witness for C3 at X = [0, 0, 0, 3, 4, 5, 8, 9, 50, 51, 52], k = 3
(the textbook scenario of the specification). -/
theorem C3_output_slices_witness :
    (2 ≤ 3 ∧ sortedAsc [0, 0, 0, 3, 4, 5, 8, 9, 50, 51, 52] = true) ∧
    ((∀ s, udcFit 3 5 [0, 0, 0, 3, 4, 5, 8, 9, 50, 51, 52] = Except.ok s →
      List.Chain' (fun a c : Nat × Nat => a.2 ≤ c.1) s ∧ ∀ p ∈ s, p.1 < p.2) ∧
    (∀ s, hudcFit 3 (some 5) none Method.conservative 20
        [0, 0, 0, 3, 4, 5, 8, 9, 50, 51, 52] = Except.ok s →
      List.Chain' (fun a c : Nat × Nat => a.2 ≤ c.1) s ∧ ∀ p ∈ s, p.1 < p.2)) :=
  ⟨⟨by decide, by decide⟩,
    C3_output_slices [0, 0, 0, 3, 4, 5, 8, 9, 50, 51, 52] 3 5 (some 5) none
      Method.conservative 20 (by decide) (by decide)⟩

theorem sortedAsc_slice (xs : List Int) (h : sortedAsc xs = true)
    (l m : Nat) : sortedAsc ((xs.drop l).take m) = true := by
  rw [sortedAsc_iff_sorted] at h ⊢
  exact h.sublist (((xs.drop l).take_sublist m).trans (xs.drop_sublist l))

theorem mapExcept_all_ok {α β : Type} (f : α → Except String β)
    (l : List α) (h : ∀ a ∈ l, ∃ b, f a = Except.ok b) :
    ∃ ys, mapExcept f l = Except.ok ys := by
  induction l with
  | nil => exact ⟨[], rfl⟩
  | cons a as ih =>
    obtain ⟨b, hb⟩ := h a (List.mem_cons_self _ _)
    obtain ⟨bs, hbs⟩ := ih (fun x hx => h x (List.mem_cons_of_mem _ hx))
    refine ⟨b :: bs, ?_⟩
    rw [mapExcept, hb, hbs]

theorem mkPoints_map_value (xs cores : List Int) :
    (mkPoints xs cores).map (fun p => p.value) = xs := by
  apply List.ext_getElem
  · simp [mkPoints]
  · intro i h1 h2
    simp [mkPoints]
    rw [List.getElem?_eq_getElem h2]
    rfl

/-- On a points slice whose values are sorted ascending, the traversal
never raises: the only assert inside is the sorted check of _subcluster
and value slices of a sorted array are sorted. -/
theorem traverse_ok (k : Nat) (meth : Method) (gE : Int) :
    ∀ (fuel : Nat) (pts : List PointR) (lE : Int),
      sortedAsc (pts.map (fun p => p.value)) = true →
      ∃ out, traverse k meth gE fuel pts lE = Except.ok out := by
  intro fuel
  induction fuel with
  | zero =>
    intro pts lE hs
    rw [traverse]
    split
    · exact ⟨_, rfl⟩
    · split
      · exact ⟨_, rfl⟩
      · exact ⟨_, rfl⟩
  | succ fuel' ih =>
    intro pts lE hs
    rw [traverse]
    split
    · exact ⟨_, rfl⟩
    · rename_i f hfork
      split
      · exact ⟨_, rfl⟩
      · have hclE : clusterE (pts.map (fun p => p.value)) k (f - 1) =
            Except.ok (cluster (pts.map (fun p => p.value)) k (f - 1)) := by
          rw [clusterE, if_pos hs]
        have hchildren : ∀ b ∈ cluster (pts.map (fun p => p.value)) k (f - 1),
            ∃ r, traverse k meth gE fuel'
              ((pts.drop b.1).take (b.2 - b.1)) f = Except.ok r := by
          intro b _
          apply ih
          rw [List.map_take, List.map_drop]
          exact sortedAsc_slice _ hs b.1 (b.2 - b.1)
        obtain ⟨ys, hys⟩ := mapExcept_all_ok _ _ hchildren
        refine ⟨ys.flatten, ?_⟩
        show (match clusterE (pts.map (fun p => p.value)) k (f - 1) with
          | Except.error e => Except.error e
          | Except.ok bounds =>
            match mapExcept (fun b : Nat × Nat =>
                traverse k meth gE fuel'
                  ((pts.drop b.1).take (b.2 - b.1)) f) bounds with
            | Except.error e => Except.error e
            | Except.ok nested => Except.ok nested.flatten) =
          Except.ok ys.flatten
        rw [hclE]
        show (match mapExcept (fun b : Nat × Nat =>
            traverse k meth gE fuel'
              ((pts.drop b.1).take (b.2 - b.1)) f)
            (cluster (pts.map (fun p => p.value)) k (f - 1)) with
          | Except.error e => Except.error e
          | Except.ok nested => Except.ok nested.flatten) =
          Except.ok ys.flatten
        rw [hys]

/-- C4 counterexample: the hierarchical clusterer constructed with the
valid defaults (min_points = 2, max_eps and min_eps unset,
conservative), applied to the sorted array [0, 1, 2], raises a
TypeError instead of returning: with no fork the source evaluates
None - 1 when defaulting max_eps. -/
theorem C4_counterexample :
    sortedAsc [0, 1, 2] = true ∧
    hudcFit 2 none none Method.conservative 5 [0, 1, 2] =
      Except.error "TypeError: unsupported operand None - int" :=
  ⟨by decide, rfl⟩

/-- C4 amended: with valid parameters (k ≥ 2), the flat clusterer
returns without error on sorted input and raises on unsorted input; the
hierarchical clusterer raises on unsorted input, and on sorted input
returns without error PROVIDED the array is shorter than min_points, or
max_eps is set nonzero, or the array forks; when max_eps is unset (or
zero) and there is no fork, fit raises a TypeError from None - 1. -/
theorem C4_fit_errors (k : Nat) (eps : Int) (maxE minE : Option Int)
    (meth : Method) (fuel : Nat) (xs : List Int) (hk : 2 ≤ k) :
    (sortedAsc xs = true → ∃ s, udcFit k eps xs = Except.ok s) ∧
    (sortedAsc xs = false → ∃ e, udcFit k eps xs = Except.error e) ∧
    (sortedAsc xs = false →
      ∃ e, hudcFit k maxE minE meth fuel xs = Except.error e) ∧
    (sortedAsc xs = true →
      (xs.length < k ∨ (∃ e0, maxE = some e0 ∧ e0 ≠ 0) ∨
        (forkEpsilon xs k).isSome) →
      ∃ s, hudcFit k maxE minE meth fuel xs = Except.ok s) := by
  refine ⟨?_, ?_, ?_, ?_⟩
  · intro hs
    exact ⟨_, by rw [udcFit, clusterE, if_pos hs]⟩
  · intro hs
    refine ⟨"AssertionError: array not sorted ascending", ?_⟩
    rw [udcFit, clusterE, if_neg (by rw [hs]; exact Bool.false_ne_true)]
  · intro hs
    refine ⟨"AssertionError: array not sorted ascending", ?_⟩
    rw [hudcFit, hudcRun, if_neg (by rw [hs]; exact Bool.false_ne_true)]
  · intro hs hcond
    rw [hudcFit, hudcRun, if_pos hs]
    by_cases hlen : xs.length < k
    · rw [if_pos hlen]
      exact ⟨[], rfl⟩
    · rw [if_neg hlen]
      have hE : ∃ me, maxEpsE maxE xs k = Except.ok me := by
        rcases hcond with h | ⟨e0, he0, hne0⟩ | hfork
        · exact absurd h hlen
        · subst he0
          rw [maxEpsE, if_neg hne0]
          exact ⟨e0, rfl⟩
        · rw [Option.isSome_iff_exists] at hfork
          obtain ⟨f, hf⟩ := hfork
          have hroot : rootForkE xs k = Except.ok (f - 1) := by
            rw [rootForkE, hf]
          cases maxE with
          | none => exact ⟨f - 1, by rw [maxEpsE, hroot]⟩
          | some e =>
            by_cases he : e = 0
            · subst he
              exact ⟨f - 1, by rw [maxEpsE, if_pos rfl, hroot]⟩
            · exact ⟨e, by rw [maxEpsE, if_neg he]⟩
      obtain ⟨me, hme⟩ := hE
      have hclE : clusterE xs k me = Except.ok (cluster xs k me) := by
        rw [clusterE, if_pos hs]
      have hchildren : ∀ b ∈ cluster xs k me,
          ∃ r, traverse k meth me fuel
            (((mkPoints xs (coresWithFloor minE xs k)).drop b.1).take
              (b.2 - b.1)) me = Except.ok r := by
        intro b _
        apply traverse_ok
        rw [List.map_take, List.map_drop, mkPoints_map_value]
        exact sortedAsc_slice _ hs b.1 (b.2 - b.1)
      obtain ⟨ys, hys⟩ := mapExcept_all_ok _ _ hchildren
      refine ⟨ys.flatten, ?_⟩
      rw [hme]
      show (match clusterE xs k me with
        | Except.error e => Except.error e
        | Except.ok bounds =>
          match mapExcept (fun b : Nat × Nat =>
              traverse k meth me fuel
                (((mkPoints xs (coresWithFloor minE xs k)).drop b.1).take
                  (b.2 - b.1)) me) bounds with
          | Except.error e => Except.error e
          | Except.ok nested => Except.ok nested.flatten) =
        Except.ok ys.flatten
      rw [hclE]
      show (match mapExcept (fun b : Nat × Nat =>
          traverse k meth me fuel
            (((mkPoints xs (coresWithFloor minE xs k)).drop b.1).take
              (b.2 - b.1)) me) (cluster xs k me) with
        | Except.error e => Except.error e
        | Except.ok nested => Except.ok nested.flatten) =
        Except.ok ys.flatten
      rw [hys]

/-- Witness for C4 amended at k = 3, a sorted array with a fork and an
unsorted array. -/
theorem C4_fit_errors_witness :
    (2 ≤ 3) ∧
    ((sortedAsc [0, 1, 2, 10, 11, 12] = true →
      ∃ s, udcFit 3 2 [0, 1, 2, 10, 11, 12] = Except.ok s) ∧
    (sortedAsc [0, 1, 2, 10, 11, 12] = false →
      ∃ e, udcFit 3 2 [0, 1, 2, 10, 11, 12] = Except.error e) ∧
    (sortedAsc [0, 1, 2, 10, 11, 12] = false →
      ∃ e, hudcFit 3 none none Method.conservative 9 [0, 1, 2, 10, 11, 12] =
        Except.error e) ∧
    (sortedAsc [0, 1, 2, 10, 11, 12] = true →
      (([0, 1, 2, 10, 11, 12] : List Int).length < 3 ∨
        (∃ e0, (none : Option Int) = some e0 ∧ e0 ≠ 0) ∨
        (forkEpsilon [0, 1, 2, 10, 11, 12] 3).isSome) →
      ∃ s, hudcFit 3 none none Method.conservative 9 [0, 1, 2, 10, 11, 12] =
        Except.ok s)) :=
  ⟨by decide,
    C4_fit_errors 3 2 none none Method.conservative 9 [0, 1, 2, 10, 11, 12]
      (by decide)⟩

/-- Lexicographic comparison of character lists, the order used by
numpy when sorting string arrays. -/
def lexLeChar : List Char → List Char → Bool
  | [], _ => true
  | _ :: _, [] => false
  | a :: as, b :: bs => if a = b then lexLeChar as bs else decide (a < b)

/-- Ascending string order (numpy string sort). -/
def strLe (a b : String) : Prop := lexLeChar a.data b.data = true

instance : DecidableRel strLe :=
  fun a b => instDecidableEqBool (lexLeChar a.data b.data) true

theorem lexLeChar_total : ∀ (a b : List Char),
    lexLeChar a b = true ∨ lexLeChar b a = true := by
  intro a
  induction a with
  | nil => intro b; left; rfl
  | cons x xs ih =>
    intro b
    cases b with
    | nil => right; rfl
    | cons y ys =>
      rw [lexLeChar, lexLeChar]
      by_cases hxy : x = y
      · subst hxy
        rw [if_pos rfl, if_pos rfl]
        exact ih ys
      · rw [if_neg hxy, if_neg (Ne.symm hxy)]
        rcases lt_or_gt_of_ne hxy with h | h
        · left; exact decide_eq_true h
        · right; exact decide_eq_true h

theorem lexLeChar_trans : ∀ (a b c : List Char),
    lexLeChar a b = true → lexLeChar b c = true → lexLeChar a c = true := by
  intro a
  induction a with
  | nil => intro b c _ _; rfl
  | cons x xs ih =>
    intro b c hab hbc
    cases b with
    | nil => rw [lexLeChar] at hab; cases hab
    | cons y ys =>
      cases c with
      | nil => rw [lexLeChar] at hbc; cases hbc
      | cons z zs =>
        rw [lexLeChar] at hab hbc ⊢
        by_cases hxy : x = y
        · subst hxy
          rw [if_pos rfl] at hab
          by_cases hyz : x = z
          · subst hyz
            rw [if_pos rfl] at hbc
            rw [if_pos rfl]
            exact ih ys zs hab hbc
          · rw [if_neg hyz] at hbc
            rw [if_neg hyz]
            exact hbc
        · rw [if_neg hxy] at hab
          have hxylt : x < y := of_decide_eq_true hab
          by_cases hyz : y = z
          · subst hyz
            rw [if_neg hxy]
            exact decide_eq_true hxylt
          · rw [if_neg hyz] at hbc
            have hyzlt : y < z := of_decide_eq_true hbc
            have hxz : x < z := lt_trans hxylt hyzlt
            rw [if_neg (ne_of_lt hxz)]
            exact decide_eq_true hxz

instance : IsTotal String strLe :=
  ⟨fun a b => lexLeChar_total a.data b.data⟩

instance : IsTrans String strLe :=
  ⟨fun a b c => lexLeChar_trans a.data b.data c.data⟩

/-- ReadGroupKey (reference, strand, category, source). -/
structure Key4 where
  ref : String
  strand : String
  cat : String
  source : String
deriving DecidableEq

/-- BinGroupKey (reference, strand, category). -/
structure Key3 where
  ref : String
  strand : String
  cat : String
deriving DecidableEq

/-- The projection group[0:3] used by ComparativeBins.from_union. -/
def projKey (g : Key4) : Key3 := ⟨g.ref, g.strand, g.cat⟩

/-- ReadLoci: groups keyed by ReadGroupKey holding (start, stop, name)
records. -/
abbrev ReadLociG := List (Key4 × List (Int × Int × String))

/-- FingerPrint: groups keyed by ReadGroupKey holding (start, stop)
intervals. -/
abbrev FingerPrintG := List (Key4 × List (Int × Int))

/-- ComparativeBins: groups keyed by BinGroupKey holding (start, stop)
intervals. -/
abbrev BinsG := List (Key3 × List (Int × Int))

/-- Comparison: groups keyed by BinGroupKey holding
(start, stop, samples, counts) records. -/
abbrev ComparisonG := List (Key3 × List (Int × Int × List String × List Nat))

/-- Association-list lookup (Python dict access by key). -/
def lookupG {κ ν : Type} [DecidableEq κ] (m : List (κ × ν)) (key : κ) :
    Option ν :=
  (m.find? (fun p => decide (p.1 = key))).map (fun p => p.2)

/-- The walk inside _loci_melter (loci.py lines 8-27): both coordinate
arrays are consumed at the same index; a new start within the current
stop extends it (stop only moves up because stops are sorted), otherwise
the interval is emitted and the walk restarts. -/
def lociMelterAux : Int → Int → List (Int × Int) → List (Int × Int)
  | start, stop, [] => [(start, stop)]
  | start, stop, (s, t) :: rest =>
    if s ≤ stop then lociMelterAux start (if t > stop then t else stop) rest
    else (start, stop) :: lociMelterAux s t rest

/-- _loci_melter (loci.py lines 8-27): sort starts and stops
independently and walk them in lock step; closed intervals, so a start
equal to the current stop merges.  The source indexes element 0 and
raises on an empty array; the embedding returns the empty list there. -/
def lociMelter (A : List (Int × Int)) : List (Int × Int) :=
  let starts := (A.map Prod.fst).insertionSort (· ≤ ·)
  let stops := (A.map Prod.snd).insertionSort (· ≤ ·)
  match starts.zip stops with
  | [] => []
  | (s, t) :: rest => lociMelterAux s t rest

theorem lociMelterAux_head (s t : Int) (rest : List (Int × Int)) :
    ∃ t0 tl, lociMelterAux s t rest = (s, t0) :: tl := by
  induction rest generalizing t with
  | nil => exact ⟨t, [], rfl⟩
  | cons p rest ih =>
    obtain ⟨s2, t2⟩ := p
    rw [lociMelterAux]
    by_cases h : s2 ≤ t
    · rw [if_pos h]
      exact ih _
    · rw [if_neg h]
      exact ⟨t, lociMelterAux s2 t2 rest, rfl⟩

/-- The melter output is strictly separated: each emitted stop is below
the next emitted start. -/
theorem lociMelterAux_chain (s t : Int) (rest : List (Int × Int)) :
    List.Chain' (fun a b : Int × Int => a.2 < b.1) (lociMelterAux s t rest) := by
  induction rest generalizing s t with
  | nil => simp [lociMelterAux]
  | cons p rest ih =>
    obtain ⟨s2, t2⟩ := p
    rw [lociMelterAux]
    by_cases h : s2 ≤ t
    · rw [if_pos h]
      exact ih s _
    · rw [if_neg h]
      obtain ⟨t0, tl, heq⟩ := lociMelterAux_head s2 t2 rest
      rw [heq, List.chain'_cons]
      exact ⟨by omega, heq ▸ ih s2 t2⟩

/-- The emitted starts form a sublist of the consumed starts. -/
theorem lociMelterAux_starts_sublist (s t : Int) (rest : List (Int × Int)) :
    ((lociMelterAux s t rest).map Prod.fst).Sublist (s :: rest.map Prod.fst) := by
  induction rest generalizing s t with
  | nil => simp [lociMelterAux]
  | cons p rest ih =>
    obtain ⟨s2, t2⟩ := p
    rw [lociMelterAux]
    by_cases h : s2 ≤ t
    · rw [if_pos h]
      have h1 := ih s (if t2 > t then t2 else t)
      have h2 : (s :: rest.map Prod.fst).Sublist
          (s :: s2 :: rest.map Prod.fst) :=
        List.Sublist.cons₂ s (List.sublist_cons_self s2 _)
      exact h1.trans h2
    · rw [if_neg h]
      simp only [List.map_cons]
      exact List.Sublist.cons₂ s (ih s2 t2)

/-- The emitted stops form a sublist of the consumed stops. -/
theorem lociMelterAux_stops_sublist (s t : Int) (rest : List (Int × Int)) :
    ((lociMelterAux s t rest).map Prod.snd).Sublist (t :: rest.map Prod.snd) := by
  induction rest generalizing s t with
  | nil => simp [lociMelterAux]
  | cons p rest ih =>
    obtain ⟨s2, t2⟩ := p
    rw [lociMelterAux]
    by_cases h : s2 ≤ t
    · rw [if_pos h]
      have h1 := ih s (if t2 > t then t2 else t)
      by_cases ht : t2 > t
      · rw [if_pos ht] at h1 ⊢
        exact h1.trans (List.sublist_cons_self t _)
      · rw [if_neg ht] at h1 ⊢
        exact h1.trans (List.Sublist.cons₂ t (List.sublist_cons_self t2 _))
    · rw [if_neg h]
      simp only [List.map_cons]
      exact List.Sublist.cons₂ t (ih s2 t2)

/-- A strictly separated list is a fixed point of the melter walk. -/
theorem lociMelterAux_fixed (s t : Int) (rest : List (Int × Int))
    (hch : List.Chain' (fun a b : Int × Int => a.2 < b.1) ((s, t) :: rest)) :
    lociMelterAux s t rest = (s, t) :: rest := by
  induction rest generalizing s t with
  | nil => rfl
  | cons p rest ih =>
    obtain ⟨s2, t2⟩ := p
    have h1 : t < s2 := (List.chain'_cons.mp hch).1
    have h2 := (List.chain'_cons.mp hch).2
    rw [lociMelterAux, if_neg (by omega)]
    rw [ih s2 t2 h2]

/-- C8: applying the loci melt twice gives the same result as applying
it once, for any nonempty interval set (the source raises on an empty
one). -/
theorem C8_melt_idempotent (A : List (Int × Int)) (hA : A ≠ []) :
    lociMelter (lociMelter A) = lociMelter A := by
  have hAlen : 0 < A.length := List.length_pos.mpr hA
  have hslen : ((A.map Prod.fst).insertionSort (· ≤ ·)).length = A.length := by
    rw [(List.perm_insertionSort _ _).length_eq, List.length_map]
  have htlen : ((A.map Prod.snd).insertionSort (· ≤ ·)).length = A.length := by
    rw [(List.perm_insertionSort _ _).length_eq, List.length_map]
  have hssorted := List.sorted_insertionSort (· ≤ ·) (A.map Prod.fst)
  have htsorted := List.sorted_insertionSort (· ≤ ·) (A.map Prod.snd)
  rcases hS : (A.map Prod.fst).insertionSort (· ≤ ·) with _ | ⟨s0, S⟩
  · rw [hS] at hslen; simp at hslen; omega
  · rcases hT : (A.map Prod.snd).insertionSort (· ≤ ·) with _ | ⟨t0, T⟩
    · rw [hT] at htlen; simp at htlen; omega
    · have hLMA : lociMelter A = lociMelterAux s0 t0 (S.zip T) := by
        rw [lociMelter, hS, hT]
        simp only [List.zip_cons_cons]
      rw [hLMA]
      have hlenST : S.length = T.length := by
        rw [hS] at hslen; rw [hT] at htlen
        simp at hslen htlen
        omega
      have hmapfst : (S.zip T).map Prod.fst = S :=
        List.map_fst_zip S T (by omega)
      have hmapsnd : (S.zip T).map Prod.snd = T :=
        List.map_snd_zip S T (by omega)
      have hBstarts : ((lociMelterAux s0 t0 (S.zip T)).map Prod.fst).Sorted
          (· ≤ ·) := by
        have hsub := lociMelterAux_starts_sublist s0 t0 (S.zip T)
        rw [hmapfst] at hsub
        rw [hS] at hssorted
        exact hssorted.sublist hsub
      have hBstops : ((lociMelterAux s0 t0 (S.zip T)).map Prod.snd).Sorted
          (· ≤ ·) := by
        have hsub := lociMelterAux_stops_sublist s0 t0 (S.zip T)
        rw [hmapsnd] at hsub
        rw [hT] at htsorted
        exact htsorted.sublist hsub
      have hBchain := lociMelterAux_chain s0 t0 (S.zip T)
      rw [lociMelter]
      rw [List.Sorted.insertionSort_eq hBstarts,
        List.Sorted.insertionSort_eq hBstops]
      have hzipB : ((lociMelterAux s0 t0 (S.zip T)).map Prod.fst).zip
          ((lociMelterAux s0 t0 (S.zip T)).map Prod.snd) =
          lociMelterAux s0 t0 (S.zip T) :=
        (List.zip_of_prod rfl rfl).symm
      rw [hzipB]
      obtain ⟨t0', tl, hBeq⟩ := lociMelterAux_head s0 t0 (S.zip T)
      rw [hBeq]
      rw [hBeq] at hBchain
      exact lociMelterAux_fixed s0 t0' tl hBchain

/-- Witness for C8 at the melt scenario of the specification. -/
theorem C8_melt_idempotent_witness :
    (([((1 : Int), (5 : Int)), (3, 7), (10, 12), (11, 20), (30, 30)] :
        List (Int × Int)) ≠ []) ∧
    lociMelter (lociMelter
        [((1 : Int), (5 : Int)), (3, 7), (10, 12), (11, 20), (30, 30)]) =
      lociMelter [((1 : Int), (5 : Int)), (3, 7), (10, 12), (11, 20), (30, 30)] :=
  ⟨by decide, C8_melt_idempotent _ (by decide)⟩

/-- The key space of ComparativeBins.from_union: projections of every
input key to (reference, strand, category), de-duplicated (the Python
set). -/
def unionKeys (args : List FingerPrintG) : List Key3 :=
  ((args.map (fun a => a.map (fun p => projKey p.1))).flatten).dedup

/-- All input intervals mapping to a projected key, in argument order
then group order (the append loop of from_union). -/
def collectLoci (args : List FingerPrintG) (g : Key3) : List (Int × Int) :=
  ((args.map (fun a => a.filterMap (fun p =>
      if projKey p.1 = g then some p.2 else none))).flatten).flatten

/-- ComparativeBins.from_union (loci.py lines 145-158): project the
keys, pool the intervals per projected key and melt them. -/
def fromUnion (args : List FingerPrintG) : BinsG :=
  (unionKeys args).map (fun g => (g, lociMelter (collectLoci args g)))

theorem lookup_keysMap {κ ν : Type} [DecidableEq κ] (keys : List κ)
    (v : κ → ν) (x : κ) :
    lookupG (keys.map (fun g => (g, v g))) x =
      if x ∈ keys then some (v x) else none := by
  induction keys with
  | nil => simp [lookupG]
  | cons k ks ih =>
    by_cases hk : k = x
    · subst hk
      simp [lookupG, List.find?_cons_of_pos]
    · rw [List.map_cons]
      have hfind : List.find? (fun p => decide (p.1 = x))
          ((k, v k) :: ks.map (fun g => (g, v g))) =
          List.find? (fun p => decide (p.1 = x)) (ks.map (fun g => (g, v g))) :=
        List.find?_cons_of_neg _ (by simp [hk])
      rw [lookupG, hfind]
      rw [lookupG] at ih
      rw [ih]
      by_cases hx : x ∈ ks
      · rw [if_pos hx, if_pos (List.mem_cons_of_mem _ hx)]
      · rw [if_neg hx, if_neg ?_]
        intro hmem
        rcases List.mem_cons.mp hmem with h | h
        · exact hk h.symm
        · exact hx h

/-- The melter result only depends on the multiset of intervals. -/
theorem lociMelter_perm (A B : List (Int × Int)) (h : A.Perm B) :
    lociMelter A = lociMelter B := by
  have hs : (A.map Prod.fst).insertionSort (· ≤ ·) =
      (B.map Prod.fst).insertionSort (· ≤ ·) :=
    List.eq_of_perm_of_sorted
      ((List.perm_insertionSort _ _).trans
        ((h.map _).trans (List.perm_insertionSort _ _).symm))
      (List.sorted_insertionSort _ _) (List.sorted_insertionSort _ _)
  have ht : (A.map Prod.snd).insertionSort (· ≤ ·) =
      (B.map Prod.snd).insertionSort (· ≤ ·) :=
    List.eq_of_perm_of_sorted
      ((List.perm_insertionSort _ _).trans
        ((h.map _).trans (List.perm_insertionSort _ _).symm))
      (List.sorted_insertionSort _ _) (List.sorted_insertionSort _ _)
  rw [lociMelter, lociMelter, hs, ht]

/-- C9: ComparativeBins.from_union is commutative: swapping the two
argument groups yields the same set of projected keys, each mapped to
the same melted interval sequence (the dictionaries agree under
lookup at every key; only the arbitrary set iteration order differs). -/
theorem C9_from_union_comm (a b : FingerPrintG) (g : Key3) :
    lookupG (fromUnion [a, b]) g = lookupG (fromUnion [b, a]) g := by
  rw [fromUnion, fromUnion, lookup_keysMap, lookup_keysMap]
  have hmem : g ∈ unionKeys [a, b] ↔ g ∈ unionKeys [b, a] := by
    rw [unionKeys, unionKeys]
    rw [List.mem_dedup, List.mem_dedup]
    simp [List.mem_flatten, or_comm]
  have hval : lociMelter (collectLoci [a, b] g) =
      lociMelter (collectLoci [b, a] g) := by
    apply lociMelter_perm
    rw [collectLoci, collectLoci]
    simp only [List.map_cons, List.map_nil, List.flatten_cons,
      List.flatten_nil, List.append_nil, List.flatten_append]
    exact List.perm_append_comm
  by_cases hg : g ∈ unionKeys [a, b]
  · rw [if_pos hg, if_pos (hmem.mp hg), hval]
  · rw [if_neg hg, if_neg (fun hc => hg (hmem.mpr hc))]

/-- The tip column of one read group: stop for the + strand, start
otherwise (ReadLoci.tips, loci.py lines 98-105). -/
def tipsOfGroup (g : Key4) (loci : List (Int × Int × String)) : List Int :=
  if g.strand = "+" then loci.map (fun x => x.2.1) else loci.map (fun x => x.1)

/-- The dictionary built by ReadLoci.tips. -/
def tipsD (r : ReadLociG) : List (Key4 × List Int) :=
  r.map (fun p => (p.1, tipsOfGroup p.1 p.2))

/-- The sample list of ComparativeBins.compare: the set of source
fields of ALL read groups (loci.py line 164), sorted ascending. -/
def samplesOf (r : ReadLociG) : List String :=
  ((r.map (fun p => p.1.source)).dedup).insertionSort strLe

/-- np.sum(np.logical_and(tips >= start, tips <= stop)). -/
def countInBin (ts : List Int) (start stop : Int) : Nat :=
  ts.countP (fun t => decide (start ≤ t ∧ t ≤ stop))

/-- The per-sample dictionary access tips_dict[(*group, sample)] of
compare: a KeyError when the sample has no read group under the bin
group key. -/
def tipsLookupE (r : ReadLociG) (g : Key3) (s : String) :
    Except String (List Int) :=
  match lookupG (tipsD r) ⟨g.ref, g.strand, g.cat, s⟩ with
  | none => Except.error "KeyError"
  | some ts => Except.ok ts

/-- ComparativeBins.compare (loci.py lines 163-181): for every bin
group, look up the tips of every sample under the bin group key (a
KeyError when a sample has no read group with that key), then count
tips per bin and sample. -/
def compare (bins : BinsG) (r : ReadLociG) : Except String ComparisonG :=
  mapExcept (fun gb : Key3 × List (Int × Int) =>
    match mapExcept (tipsLookupE r gb.1) (samplesOf r) with
    | Except.error e => Except.error e
    | Except.ok sampleTips =>
      Except.ok (gb.1, gb.2.map (fun iv =>
        (iv.1, iv.2, samplesOf r,
          sampleTips.map (fun ts => countInBin ts iv.1 iv.2))))) bins

/-- The sample list demanded by the claim: only sources of read groups
whose projected key equals the bin group. -/
def claimSamples (r : ReadLociG) (g : Key3) : List String :=
  ((r.filterMap (fun p =>
      if projKey p.1 = g then some p.1.source else none)).dedup).insertionSort
    strLe

def c6Bins : BinsG := [(⟨"chr1", "+", "gypsy"⟩, [(100, 200)])]

def c6Reads : ReadLociG :=
  [(⟨"chr1", "+", "gypsy", "sampleA"⟩, [(0, 105, "a1")]),
   (⟨"chr2", "+", "copia", "sampleB"⟩, [(0, 50, "b1")])]

/-- C6 counterexample: the claim demands samples = [sampleA] for the
bin group (chr1, +, gypsy) (only matching read groups), but the source
collects the sources of ALL read groups and then raises a KeyError
looking up (chr1, +, gypsy, sampleB), so no Comparison is returned at
all. -/
theorem C6_counterexample :
    claimSamples c6Reads ⟨"chr1", "+", "gypsy"⟩ = ["sampleA"] ∧
    samplesOf c6Reads = ["sampleA", "sampleB"] ∧
    compare c6Bins c6Reads = Except.error "KeyError" :=
  ⟨rfl, rfl, rfl⟩

theorem forall₂_tipsLookup (r : ReadLociG) (g : Key3) :
    ∀ (ss : List String) (ts : List (List Int)),
      List.Forall₂ (fun s t => tipsLookupE r g s = Except.ok t) ss ts →
      ts = ss.map (fun s =>
        (lookupG (tipsD r) ⟨g.ref, g.strand, g.cat, s⟩).getD []) := by
  intro ss ts h
  induction h with
  | nil => rfl
  | @cons s t ss ts hrel htail ih =>
    rw [List.map_cons, ← ih]
    rw [tipsLookupE] at hrel
    cases hL : lookupG (tipsD r) ⟨g.ref, g.strand, g.cat, s⟩ with
    | none => rw [hL] at hrel; cases hrel
    | some x =>
      rw [hL] at hrel
      injection hrel with hrel
      rw [hrel]
      rfl

/-- C6 amended: when compare returns at all (every sample must have a
read group under every bin group key, else a KeyError is raised), the
samples field of every bin is the ascending de-duplicated list of the
source values of ALL read groups of R, irrespective of the bin group,
and counts[i] is the number of tips of sample samples[i] in the closed
bin range. -/
theorem C6_compare (bins : BinsG) (r : ReadLociG) (comp : ComparisonG)
    (h : compare bins r = Except.ok comp) :
    (samplesOf r).Sorted strLe ∧ (samplesOf r).Nodup ∧
    (∀ s, s ∈ samplesOf r ↔ ∃ p ∈ r, p.1.source = s) ∧
    List.Forall₂ (fun (gb : Key3 × List (Int × Int))
        (gc : Key3 × List (Int × Int × List String × List Nat)) =>
      gc.1 = gb.1 ∧
      gc.2 = gb.2.map (fun iv =>
        (iv.1, iv.2, samplesOf r, (samplesOf r).map (fun s =>
          countInBin ((lookupG (tipsD r)
            ⟨gb.1.ref, gb.1.strand, gb.1.cat, s⟩).getD []) iv.1 iv.2))))
      bins comp := by
  refine ⟨List.sorted_insertionSort _ _, ?_, ?_, ?_⟩
  · exact (List.Perm.nodup_iff (List.perm_insertionSort _ _)).mpr
      (List.nodup_dedup _)
  · intro s
    rw [samplesOf]
    rw [(List.perm_insertionSort strLe _).mem_iff, List.mem_dedup,
      List.mem_map]
  · have hfa := mapExcept_ok _ _ _ h
    apply forall₂_imp_mem hfa
    intro gb _ gc hrel
    cases hinner : mapExcept (tipsLookupE r gb.1) (samplesOf r) with
    | error e => rw [hinner] at hrel; cases hrel
    | ok sampleTips =>
      rw [hinner] at hrel
      injection hrel with hrel
      have hst := forall₂_tipsLookup r gb.1 (samplesOf r) sampleTips
        (mapExcept_ok _ _ _ hinner)
      subst hst
      rw [← hrel]
      refine ⟨rfl, ?_⟩
      apply List.map_congr_left
      intro iv _
      simp [List.map_map]

def c6wBins : BinsG := [(⟨"chr1", "+", "gypsy"⟩, [(100, 200)])]

def c6wReads : ReadLociG :=
  [(⟨"chr1", "+", "gypsy", "sampleA"⟩,
      [(0, 105, "a1"), (0, 150, "a2"), (0, 250, "a3")]),
   (⟨"chr1", "+", "gypsy", "sampleB"⟩,
      [(0, 199, "b1"), (0, 200, "b2"), (0, 201, "b3")])]

def c6wComp : ComparisonG :=
  [(⟨"chr1", "+", "gypsy"⟩,
      [(100, 200, ["sampleA", "sampleB"], [2, 2])])]

/-- Witness for C6 amended at the comparator scenario of the
specification: counts [2, 2] for samples A and B on the bin
(100, 200). -/
theorem C6_compare_witness :
    compare c6wBins c6wReads = Except.ok c6wComp ∧
    ((samplesOf c6wReads).Sorted strLe ∧ (samplesOf c6wReads).Nodup ∧
    (∀ s, s ∈ samplesOf c6wReads ↔ ∃ p ∈ c6wReads, p.1.source = s) ∧
    List.Forall₂ (fun (gb : Key3 × List (Int × Int))
        (gc : Key3 × List (Int × Int × List String × List Nat)) =>
      gc.1 = gb.1 ∧
      gc.2 = gb.2.map (fun iv =>
        (iv.1, iv.2, samplesOf c6wReads, (samplesOf c6wReads).map (fun s =>
          countInBin ((lookupG (tipsD c6wReads)
            ⟨gb.1.ref, gb.1.strand, gb.1.cat, s⟩).getD []) iv.1 iv.2))))
      c6wBins c6wComp) :=
  ⟨rfl, C6_compare c6wBins c6wReads c6wComp rfl⟩

/-- Writing a sorted tip column back through the numpy view: for a +
strand group, ReadLoci.fingerprint sorts loci['stop'] in place, so row
i keeps its start and name but receives the i-th smallest stop; for any
other strand the start column is overwritten likewise. -/
def writeTips (g : Key4) (loci : List (Int × Int × String))
    (ts : List Int) : List (Int × Int × String) :=
  if g.strand = "+" then
    List.zipWith (fun (x : Int × Int × String) t => (x.1, t, x.2.2)) loci ts
  else
    List.zipWith (fun (x : Int × Int × String) t => (t, x.2.1, x.2.2)) loci ts

/-- The state of the ReadLoci after fingerprint has run: tips.sort()
sorts a VIEW of the stored structured array in place (loci.py line
112), mutating one coordinate column of every group. -/
def fingerprintMutate (r : ReadLociG) : ReadLociG :=
  r.map (fun p =>
    (p.1, writeTips p.1 p.2
      ((tipsOfGroup p.1 p.2).insertionSort (· ≤ ·))))

/-- ReadLoci.fingerprint (loci.py lines 107-130): per group, sort the
tips, fit the flat or hierarchical model and take cluster extremities;
returns the new FingerPrint together with the post-call state of the
receiver (mutated through the tip views). -/
def fingerprintE (minReads : Nat) (eps : Int) (minEps : Int)
    (hier : Bool) (fuel : Nat) (r : ReadLociG) :
    Except String (FingerPrintG × ReadLociG) :=
  match mapExcept (fun p : Key4 × List (Int × Int × String) =>
    match (if hier then
        hudcFit minReads (some eps) (some minEps) Method.conservative fuel
          ((tipsOfGroup p.1 p.2).insertionSort (· ≤ ·))
      else
        udcFit minReads eps
          ((tipsOfGroup p.1 p.2).insertionSort (· ≤ ·))) with
    | Except.error e => Except.error e
    | Except.ok bounds =>
      Except.ok (p.1, bounds.map (fun b =>
        (((tipsOfGroup p.1 p.2).insertionSort (· ≤ ·)).getD b.1 0,
         ((tipsOfGroup p.1 p.2).insertionSort (· ≤ ·)).getD (b.2 - 1) 0))))
    r with
  | Except.error e => Except.error e
  | Except.ok fp => Except.ok (fp, fingerprintMutate r)

def c7Input : ReadLociG :=
  [(⟨"chr1", "+", "gypsy", "sampleA"⟩, [(10, 30, "r1"), (5, 20, "r2")])]

/-- C7 as a code bug: tips() is read-only, but fingerprint sorts the
stop column of the stored array in place through a numpy view.  On the
group [(10, 30, r1), (5, 20, r2)] the call succeeds yet the receiver
afterwards holds [(10, 20, r1), (5, 30, r2)]: the (start, stop, name)
records are NOT equal field for field before and after the call, and
the start/stop pairing is scrambled. -/
theorem C7_fingerprint_mutates :
    tipsD c7Input = [(⟨"chr1", "+", "gypsy", "sampleA"⟩, [30, 20])] ∧
    fingerprintE 2 100 0 false 9 c7Input =
      Except.ok
        ([(⟨"chr1", "+", "gypsy", "sampleA"⟩, [(20, 30)])],
         [(⟨"chr1", "+", "gypsy", "sampleA"⟩,
            [(10, 20, "r1"), (5, 30, "r2")])]) ∧
    fingerprintMutate c7Input ≠ c7Input :=
  ⟨rfl, rfl, by decide⟩

def splitTabAux : List Char → List Char → List (List Char)
  | acc, [] => [acc.reverse]
  | acc, c :: cs =>
    if c = '\t' then acc.reverse :: splitTabAux [] cs
    else splitTabAux (c :: acc) cs

/-- Python str.split of a SAM line on tab characters. -/
def splitTab (s : List Char) : List (List Char) := splitTabAux [] s

def parseNatAux : Nat → List Char → Option Nat
  | acc, [] => some acc
  | acc, c :: cs =>
    if c.isDigit then parseNatAux (acc * 10 + (c.toNat - 48)) cs else none

/-- Python int() on a decimal field; None where int() raises. -/
def parseIntChars : List Char → Option Int
  | [] => none
  | '-' :: rest =>
    match rest with
    | [] => none
    | _ => (parseNatAux 0 rest).map (fun n => -(n : Int))
  | l => (parseNatAux 0 l).map (fun n => (n : Int))

/-- Modelled from the spec: bam_io.flag_orientation is not included
under src/; section 6 of the specification fixes the rule to the SAM
flag bit 0x10, reverse strand when set. -/
def flagOrientation (flag : Nat) : String :=
  if flag.testBit 4 then "-" else "+"

/-- ReadGroup._parse_sam_strings (reads.py lines 119-151) on one SAM
string: name = field 0, start = int(field 3), length = len(field 9),
end = start + length - 1 (one-based inclusive SAM coordinates); on the
+ strand tip = end and tail = start, on the - strand tip = start and
tail = end; the strand comes from the caller or from the flag field.
Returns (tip, tail, strand, name); None for any other strand, as the
source function falls through. -/
def parseSamString (s : String) (strand : Option String) :
    Option (Int × Int × String × String) :=
  let attr := splitTab s.data
  let name := String.mk (attr.getD 0 [])
  match parseIntChars (attr.getD 3 []) with
  | none => none
  | some start =>
    let len : Int := (attr.getD 9 []).length
    let endPos := start + len - 1
    let st : Option String :=
      match strand with
      | some st => some st
      | none =>
        match parseIntChars (attr.getD 1 []) with
        | none => none
        | some flag => some (flagOrientation flag.toNat)
    match st with
    | none => none
    | some st =>
      if st = "+" then some (endPos, start, st, name)
      else if st = "-" then some (start, endPos, st, name)
      else none

def samPlusStr : String := "readA\t0\tchr1\t2\t66M19S\t*\t0\t0\tAACCCTA\tFFFIIII"

def samMinusStr : String := "readC\t16\tchr1\t7\t66M19S\t*\t0\t0\tAAC\tFFF"

/-- C10: a + strand SAM read at position 2 with a SEQ of length 7
parses to tip 8 and tail 2, and a - strand SAM read at position 7 with
a SEQ of length 3 parses to tip 7 and tail 9 (strand taken from flags
0 and 16). -/
theorem C10_tip_orientation :
    parseSamString samPlusStr none = some (8, 2, "+", "readA") ∧
    parseSamString samMinusStr none = some (7, 9, "-", "readC") :=
  ⟨rfl, rfl⟩

/-- libtec.parse_sam_strings (libtec.py lines 86-112), an older
duplicate parser imported by no module of the repository: it computes
end = start + length without the one-based correction (and labels the +
strand reverse), so it reports tip 9 for the same + strand read and
tail 10 for the same - strand read, diverging from the parser above and
from the repository's tests. -/
def libtecParseSamString (s : String) (strand : String) :
    Option (Int × Int × Int × Bool) :=
  let attr := splitTab s.data
  match parseIntChars (attr.getD 3 []) with
  | none => none
  | some start =>
    let len : Int := (attr.getD 9 []).length
    let endPos := start + len
    if strand = "+" then some (endPos, start, len, true)
    else if strand = "-" then some (start, endPos, len, false)
    else none

theorem libtecParse_off_by_one :
    libtecParseSamString samPlusStr "+" = some (9, 2, 7, true) ∧
    libtecParseSamString samMinusStr "-" = some (7, 10, 3, false) :=
  ⟨rfl, rfl⟩

end TEF
